import Mathlib

/-!
Shallow embedding of `src/codes_KRR_randbin/KRR_OneVsAll_RandBin.cpp`.

Doubles are modelled as rationals (`ℚ`), C `int`/`long` as `Int` or `Nat`
where the sign cannot matter.  External library routines that are not part
of this repository snapshot (`randFeature.hpp`, `LibCMatrix.hpp`) are
modelled from the spec where a claim depends on them; each such definition
says so in its doc comment.
-/

namespace KRR

/-- C cast of a double to an integer: truncation toward zero. -/
def truncQ (q : ℚ) : Int := if 0 ≤ q then ⌊q⌋ else ⌈q⌉

/-! ### Sparse feature store population (`main`, lines 190-214)

The generated random binning rows (`instances_new`) are a list of rows,
each row a list of (1-based feature id, weight) pairs.  The population
loop writes `mystart[i] = (i == 0 ? 0 : mystart[i-1] + r)` for
`i = 0 .. N-1` and finally `mystart[N] = nnz` with `nnz = r*N`. -/

/-- `nnz = r*(Xtrain_N + Xtest_N)` computed at line 192, with `N` the total
number of rows. -/
def nnz (r N : Nat) : Nat := r * N

/-- Value of `mystart[i]` for `i < N` as produced by the loop recurrence
`mystart[i] = mystart[i-1] + r`, `mystart[0] = 0`. -/
def mystartVal (r : Nat) : Nat → Nat
  | 0 => 0
  | i + 1 => mystartVal r i + r

/-- The full offset array of `Xdata_randbin` (length `N+1`): entries
`0 .. N-1` from the loop recurrence, entry `N` set to `nnz` at line 214. -/
def mystart (r N i : Nat) : Nat := if i < N then mystartVal r i else nnz r N

/-- The column-index array written by the population loop: for each pair the
stored 0-based index is `first - 1` (line 209), rows concatenated in order. -/
def storedIdx (rows : List (List (Int × ℚ))) : List Int :=
  rows.bind (fun row => row.map (fun p => p.1 - 1))

/-- Final value of the running counter `ind`: total number of stored
nonzeros, one per (id, weight) pair copied. -/
def storedCount (rows : List (List (Int × ℚ))) : Nat := (storedIdx rows).length

/-! ### Column dimension `dd` (`main`, lines 193-197)

`dd` starts at 0 and the loop takes the maximum of `instances_new[i][r-1].first`
over all rows: only the last pair of each row is inspected. -/

/-- The feature id of the pair at position `r-1` (the last pair when the row
has exactly `r` pairs), as read by the `dd` loop. -/
def lastFirst (r : Nat) (row : List (Int × ℚ)) : Int := (row.getD (r - 1) (0, 0)).1

/-- The `dd` accumulation loop: `if (dd < instances_new[i][r-1].first) dd = ...`
folded over all rows, starting from 0. -/
def ddOf (r : Nat) (rows : List (List (Int × ℚ))) : Int :=
  rows.foldl (fun dd row => if dd < lastFirst r row then lastFirst r row else dd) 0

/-! ### Identity preconditioner `EYE` (`main`, lines 245-256)

`EYE.Init(M, M, M)` declares an `M × M` matrix with `M` nonzeros; the loop
writes `mystart[i] = i`, `myidx[i] = i`, `myX[i] = 1` for `i = 0 .. M-1`,
and after the loop `mystart[M] = M + 1` (line 256). -/

/-- The offset array of `EYE` (length `M+1`): `mystart[i] = i` for `i < M`,
then the final write `mystart[i] = M+1` at `i = M`. -/
def eyeStartList (M : Nat) : List Nat := List.range M ++ [M + 1]

/-- The column-index array of `EYE`: `myidx[i] = i`. -/
def eyeIdxList (M : Nat) : List Nat := List.range M

/-- The value array of `EYE`: `myX[i] = 1`. -/
def eyeXList (M : Nat) : List ℚ := List.replicate M 1

/-- The nonzero count passed to `EYE.Init(M, M, M)`: the third argument. -/
def eyeNnz (M : Nat) : Nat := M

/-! ### Hyperparameter sweep and RNG reseeding (`main`, lines 141-149)

`int Seed = 0;` is set once before the double loop over `List_lambda` and
`List_sigma`; the first statement of every inner-loop body is
`srandom(Seed)`.  The RNG state is modelled as an abstract type `S` with
`srand : Nat → S` the state produced by `srandom(seed)`; the random binning
feature generation for one sweep point is an abstract
`gen : S → ℚ → F × S` consuming the state and the bandwidth `sigma` and
returning the features together with the advanced state. -/

/-- `int Seed = 0;` at line 141, never reassigned. -/
def Seed : Nat := 0

/-- Body of the loop over `List_sigma`: `srandom(Seed)` overwrites the
incoming RNG state, then the features are generated from the reseeded
state and the current `sigma`. -/
def sweepBody {S F : Type} (srand : Nat → S) (gen : S → ℚ → F × S)
    (_st : S) (sigma : ℚ) : F × S :=
  gen (srand Seed) sigma

/-- The loop over `List_sigma`, threading the global RNG state. -/
def sweepInner {S F : Type} (srand : Nat → S) (gen : S → ℚ → F × S) :
    S → List ℚ → List F × S
  | st, [] => ([], st)
  | st, sigma :: rest =>
      let out := sweepBody srand gen st sigma
      let next := sweepInner srand gen out.2 rest
      (out.1 :: next.1, next.2)

/-- The loop over `List_lambda`, threading the global RNG state; the
features generated at each `(lambda, sigma)` sweep point are collected. -/
def sweepOuter {S F : Type} (srand : Nat → S) (gen : S → ℚ → F × S) :
    S → List ℚ → List ℚ → List (List F) × S
  | st, [], _sigmas => ([], st)
  | st, _lam :: rest, sigmas =>
      let inner := sweepInner srand gen st sigmas
      let next := sweepOuter srand gen inner.2 rest sigmas
      (inner.1 :: next.1, next.2)

/-! ### Argument parsing (`main`, lines 80-99)

`argv` is modelled as the list of arguments after the program name
(`idx` starts at 1 in the C code).  `atoi`/`atof` are abstract conversion
functions. -/

/-- The record of everything the argument parser consumes, in order.  There
is no `Seed` and no `Kernel` field: the parser reads `Num_lambda`
immediately after `r`. -/
structure Args where
  NumThreads : Int
  FileTrain : String
  FileTest : String
  NumClasses : Int
  d : Int
  r : Int
  List_lambda : List ℚ
  List_sigma : List ℚ
  MAXIT : Int
  TOL : ℚ
  verbose : Bool
  deriving Repr, DecidableEq

/-- The loop `for (ii = 0; ii < len; ii++) List[ii] = atof(argv[idx++]);`
reading `len` consecutive values starting at position `start`. -/
def readVals (atof : String → ℚ) (argv : List String) (start : Nat) :
    Nat → Option (List ℚ)
  | 0 => some []
  | len + 1 => do
      let v ← argv.get? start
      let rest ← readVals atof argv (start + 1) len
      pure (atof v :: rest)

/-- The positional argument parser of `main` (lines 80-99): consumes
`NumThreads`, `FileTrain`, `FileTest`, `NumClasses`, `d`, `r`,
`Num_lambda`, `Num_lambda` lambda values, `Num_sigma`, `Num_sigma` sigma
values, `MAXIT`, `TOL`, `verbose`, in this order and nothing else. -/
def parseArgs (atoi : String → Int) (atof : String → ℚ)
    (argv : List String) : Option Args := do
  let NumThreads := atoi (← argv.get? 0)
  let FileTrain ← argv.get? 1
  let FileTest ← argv.get? 2
  let NumClasses := atoi (← argv.get? 3)
  let d := atoi (← argv.get? 4)
  let r := atoi (← argv.get? 5)
  let Num_lambda := atoi (← argv.get? 6)
  let List_lambda ← readVals atof argv 7 Num_lambda.toNat
  let nl := Num_lambda.toNat
  let Num_sigma := atoi (← argv.get? (7 + nl))
  let List_sigma ← readVals atof argv (8 + nl) Num_sigma.toNat
  let ns := Num_sigma.toNat
  let MAXIT := atoi (← argv.get? (8 + nl + ns))
  let TOL := atof (← argv.get? (9 + nl + ns))
  let verboseTok ← argv.get? (10 + nl + ns)
  pure ⟨NumThreads, FileTrain, FileTest, NumClasses, d, r, List_lambda,
    List_sigma, MAXIT, TOL, atoi verboseTok != 0⟩

/-! ### Performance scorers (lines 392-459) and label recoding (lines 377-388) -/

/-- Modelled from the spec: `DVector::Norm2` of the external LibCMatrix
library (not in this repository snapshot) is the Euclidean norm
`sqrt(sum of squares)` used for the relative L2 error; the square root on
doubles is kept abstract as the parameter `sqrt`. -/
def norm2 (sqrt : ℚ → ℚ) (v : List ℚ) : ℚ := sqrt ((v.map fun x => x * x).sum)

/-- The match test of the binary branch (line 415):
`y1[i]*y2[i] > 0 ? 1.0 : 0.0`. -/
def signMatch (ab : ℚ × ℚ) : Bool := decide (0 < ab.1 * ab.2)

/-- Vector overload of `Performance` (lines 392-421).  The two `printf`
plus `return NAN` error paths are modelled as `none`; a computed result is
`some`. -/
def Performance (sqrt : ℚ → ℚ) (ytest_truth ytest_predict : List ℚ)
    (NumClasses : Int) : Option ℚ :=
  let n := ytest_truth.length
  if n ≠ ytest_predict.length then none
  else if NumClasses ≠ 1 ∧ NumClasses ≠ 2 then none
  else if NumClasses = 1 then
    let diff := (List.zip ytest_truth ytest_predict).map fun ab => ab.1 - ab.2
    some (norm2 sqrt diff / norm2 sqrt ytest_truth)
  else
    some (((List.zip ytest_truth ytest_predict).countP signMatch : ℚ) /
      (n : ℚ) * 100)

/-- A `DMatrix` as used by the matrix `Performance` overload: `GetM()` is
`rows.length`, `GetN()` is `ncols`, `GetRow(i)` is `rows[i]`. -/
structure DMatrixQ where
  rows : List (List ℚ)
  ncols : Nat
  deriving Repr, DecidableEq

/-- Fold helper for `MaxIdx`: scans the remaining entries keeping the best
value `bv`, its index `bi`, and the index `i` of the next entry; only a
strictly greater value replaces the current best. -/
def MaxAux : List ℚ → ℚ → Int → Int → Int
  | [], _, bi, _ => bi
  | v :: rest, bv, bi, i =>
      if bv < v then MaxAux rest v i (i + 1) else MaxAux rest bv bi (i + 1)

/-- Modelled from the spec: `DVector::Max(idx)` of the external LibCMatrix
library (not in this repository snapshot) returns in `idx` the position of
the maximum entry; per the spec, ties are resolved by the
first-encountered maximum, i.e. the lowest index.  `idx` starts at `-1`
(line 445), which is only returned for an empty vector. -/
def MaxIdx : List ℚ → Int
  | [] => -1
  | v :: rest => MaxAux rest v 0 1

/-- Matrix overload of `Performance` (lines 425-459): per-row argmax
prediction followed by exact integer comparison with the truth labels. -/
def PerformanceMat (ytest_truth : List ℚ) (Ytest_predict : DMatrixQ)
    (NumClasses : Int) : Option ℚ :=
  let n := ytest_truth.length
  if n ≠ Ytest_predict.rows.length ∨ (Ytest_predict.ncols : Int) ≠ NumClasses then
    none
  else if NumClasses ≤ 2 then none
  else
    let ypred := Ytest_predict.rows.map fun row => ((MaxIdx row : Int) : ℚ)
    some (((List.zip ytest_truth ypred).countP
      (fun ab => truncQ ab.1 == truncQ ab.2) : ℚ) / (n : ℚ) * 100)

/-- `ConvertYtrain` (lines 377-388): column `i` of the recoded label
matrix is `ytrain` with entry `j` replaced by `+1` if `(int)ytrain[j] == i`
and `-1` otherwise. -/
def ConvertYtrain (ytrain : List ℚ) (NumClasses : Nat) : List (List ℚ) :=
  (List.range NumClasses).map fun (i : Nat) =>
    ytrain.map fun yj => if truncQ yj = (i : Int) then (1 : ℚ) else -1

/-- The spec-side "same sign" count: both strictly positive or both
strictly negative. -/
def sameSignCount (yt yp : List ℚ) : Nat :=
  (List.zip yt yp).countP fun ab =>
    decide ((0 < ab.1 ∧ 0 < ab.2) ∨ (ab.1 < 0 ∧ ab.2 < 0))

/-- A concrete `atoi` stand-in for the parser witness. -/
def atoiLen (s : String) : Int := (s.length : Int)

/-- A concrete `atof` stand-in for the parser witness. -/
def atofLen (s : String) : ℚ := (s.length : ℚ)

/-- A concrete argument list: `Num_lambda` token has length 1, one lambda
token, `Num_sigma` token has length 1, one sigma token. -/
def argvEx : List String :=
  ["t", "tr", "te", "c", "d", "r", "L", "l1", "S", "s1", "M", "T", "v"]

/-- The spec-side argmax characterization: the index is in range, attains
the maximum of the row, and every entry at a strictly earlier index is
strictly below it — i.e. ties are resolved to the lowest class index. -/
def argmaxProp (row : List ℚ) (a : Int) : Prop :=
  0 ≤ a ∧ a.toNat < row.length ∧
  (∀ j, j < row.length → row.getD j 0 ≤ row.getD a.toNat 0) ∧
  (∀ j, j < a.toNat → row.getD j 0 < row.getD a.toNat 0)

/-- The concrete score matrix for the C8 witness: argmax classes
`[0, 1, 1, 1]`, with a tie in the third row resolved to the lower index. -/
def Pex : DMatrixQ := ⟨[[9, 1, 0], [1, 8, 1], [2, 4, 4], [0, 6, 4]], 3⟩

/-- The concrete generated rows for the C5 witness: two rows of two sorted
pairs, ids `{1, 3}` and `{2, 4}`. -/
def rowsEx : List (List (Int × ℚ)) := [[(1, 1), (3, 1)], [(2, 1), (4, 1)]]

/-! ### Theorems for the sparse store claims -/

theorem mystartVal_eq (r : Nat) : ∀ i, mystartVal r i = r * i
  | 0 => by simp [mystartVal]
  | i + 1 => by
      rw [mystartVal, mystartVal_eq r i, Nat.mul_succ]

theorem mystart_lt (r N i : Nat) (h : i < N) : mystart r N i = r * i := by
  rw [mystart, if_pos h, mystartVal_eq]

theorem mystart_last (r N : Nat) : mystart r N N = r * N := by
  rw [mystart, if_neg (lt_irrefl N), nnz]

theorem storedCount_eq (r : Nat) (rows : List (List (Int × ℚ)))
    (hrows : ∀ row ∈ rows, row.length = r) :
    storedCount rows = r * rows.length := by
  induction rows with
  | nil => simp [storedCount, storedIdx]
  | cons row rest ih =>
      have hrow : row.length = r := hrows row (List.mem_cons_self row rest)
      have hrest : ∀ q ∈ rest, q.length = r := by
        intro q hq; exact hrows q (List.mem_cons_of_mem row hq)
      have ihr := ih hrest
      simp only [storedCount, storedIdx, List.cons_bind, List.length_append,
        List.length_map, List.length_cons] at *
      rw [hrow, ihr, Nat.mul_succ, Nat.add_comm]

/-- Claim C2: after the population loop, assuming every generated row has
exactly `r` pairs and there are `N` rows in total, consecutive offsets
differ by exactly `r`, the offsets are non-decreasing, and the final offset
`mystart[N]` equals `nnz`, which equals `r*N` and equals the number of
stored nonzeros. -/
theorem C2_store_offsets (r N : Nat) (rows : List (List (Int × ℚ)))
    (hlen : rows.length = N) (hrows : ∀ row ∈ rows, row.length = r) :
    (∀ i < N, mystart r N (i + 1) = mystart r N i + r) ∧
    (∀ i j, i ≤ j → j ≤ N → mystart r N i ≤ mystart r N j) ∧
    mystart r N N = nnz r N ∧ nnz r N = r * N ∧ storedCount rows = nnz r N := by
  have hval : ∀ i, i ≤ N → mystart r N i = r * i := by
    intro i hi
    rcases lt_or_eq_of_le hi with h | h
    · exact mystart_lt r N i h
    · rw [h]; exact mystart_last r N
  refine ⟨?_, ?_, ?_, rfl, ?_⟩
  · intro i hi
    rw [hval i (le_of_lt hi), hval (i + 1) hi, Nat.mul_succ]
  · intro i j hij hjN
    rw [hval i (le_trans hij hjN), hval j hjN]
    exact Nat.mul_le_mul_left r hij
  · exact mystart_last r N
  · rw [storedCount_eq r rows hrows, hlen, nnz]

/-! ### Theorems for the sweep reseeding claim -/

theorem sweepInner_eq {S F : Type} (srand : Nat → S) (gen : S → ℚ → F × S) :
    ∀ (st : S) (sigmas : List ℚ),
      (sweepInner srand gen st sigmas).1 =
        sigmas.map (fun sigma => (gen (srand Seed) sigma).1)
  | _, [] => rfl
  | st, sigma :: rest => by
      have ih := sweepInner_eq srand gen (gen (srand Seed) sigma).2 rest
      simp [sweepInner, sweepBody, ih]

/-- Claim C3: `Seed` is the fixed value 0 and `srandom(Seed)` runs before
every `(lambda, sigma)` sweep combination, so the features generated at
every combination equal `gen` applied to the reseeded state `srand 0` and
the combination's `sigma` — independent of the incoming RNG state, of the
lambda, and of the position in the sweep. -/
theorem C3_reseed_every_combination {S F : Type} (srand : Nat → S)
    (gen : S → ℚ → F × S) (st : S) (lambdas sigmas : List ℚ) :
    Seed = 0 ∧
    (sweepOuter srand gen st lambdas sigmas).1 =
      lambdas.map (fun _ => sigmas.map (fun sigma => (gen (srand 0) sigma).1)) := by
  refine ⟨rfl, ?_⟩
  induction lambdas generalizing st with
  | nil => rfl
  | cons lam rest ih =>
      simp only [sweepOuter, List.map_cons, List.cons.injEq]
      exact ⟨sweepInner_eq srand gen st sigmas, ih _⟩

/-! ### Theorems for the argument parser claim -/

theorem get?_eq_some_getD (argv : List String) (i : Nat) (h : i < argv.length) :
    argv.get? i = some (argv.getD i "") := by
  rw [List.get?_eq_getElem?, List.getElem?_eq_getElem h, List.getD_eq_getElem _ _ h]

theorem readVals_eq (atof : String → ℚ) (argv : List String) :
    ∀ (len start : Nat), start + len ≤ argv.length →
      readVals atof argv start len =
        some ((List.range len).map fun j => atof (argv.getD (start + j) "")) := by
  intro len
  induction len with
  | zero => intro start _; simp [readVals]
  | succ n ih =>
      intro start h
      simp only [readVals, get?_eq_some_getD argv start (by omega),
        ih (start + 1) (by omega), Option.bind_eq_bind, Option.some_bind,
        Option.pure_def, List.range_succ_eq_map, List.map_cons, List.map_map,
        Nat.add_zero, Option.some.injEq, List.cons.injEq, true_and]
      refine List.map_congr_left ?_
      intro j _
      simp only [Function.comp_apply, Nat.succ_eq_add_one]
      congr 2
      omega

/-- Claim C4: the argument parser consumes exactly, in positional order,
`NumThreads`, `FileTrain`, `FileTest`, `NumClasses`, `d`, `r`,
`Num_lambda`, the `Num_lambda` lambda values, `Num_sigma`, the `Num_sigma`
sigma values, `MAXIT`, `TOL` and `verbose`; `Num_lambda` sits at position
6 directly after `r` at position 5, so no `Seed` and no `Kernel` argument
is consumed, and the parsed `Args` record has no such field. -/
theorem C4_positional_argument_order (atoi : String → Int) (atof : String → ℚ)
    (argv : List String) (nl ns : Nat)
    (hnl : (atoi (argv.getD 6 "")).toNat = nl)
    (hns : (atoi (argv.getD (7 + nl) "")).toNat = ns)
    (hlen : 11 + nl + ns ≤ argv.length) :
    parseArgs atoi atof argv = some
      { NumThreads := atoi (argv.getD 0 "")
        FileTrain := argv.getD 1 ""
        FileTest := argv.getD 2 ""
        NumClasses := atoi (argv.getD 3 "")
        d := atoi (argv.getD 4 "")
        r := atoi (argv.getD 5 "")
        List_lambda := (List.range nl).map fun j => atof (argv.getD (7 + j) "")
        List_sigma := (List.range ns).map fun j => atof (argv.getD (8 + nl + j) "")
        MAXIT := atoi (argv.getD (8 + nl + ns) "")
        TOL := atof (argv.getD (9 + nl + ns) "")
        verbose := atoi (argv.getD (10 + nl + ns) "") != 0 } := by
  have e0 := get?_eq_some_getD argv 0 (by omega)
  have e1 := get?_eq_some_getD argv 1 (by omega)
  have e2 := get?_eq_some_getD argv 2 (by omega)
  have e3 := get?_eq_some_getD argv 3 (by omega)
  have e4 := get?_eq_some_getD argv 4 (by omega)
  have e5 := get?_eq_some_getD argv 5 (by omega)
  have e6 := get?_eq_some_getD argv 6 (by omega)
  have e7 := get?_eq_some_getD argv (7 + nl) (by omega)
  have e8 := get?_eq_some_getD argv (8 + nl + ns) (by omega)
  have e9 := get?_eq_some_getD argv (9 + nl + ns) (by omega)
  have e10 := get?_eq_some_getD argv (10 + nl + ns) (by omega)
  have r1 := readVals_eq atof argv nl 7 (by omega)
  have r2 := readVals_eq atof argv ns (8 + nl) (by omega)
  simp only [parseArgs, e0, e1, e2, e3, e4, e5, e6, hnl, r1, e7, hns, r2,
    e8, e9, e10, Option.bind_eq_bind, Option.some_bind, Option.pure_def]

/-- Witness for C4 on the concrete argument list `argvEx`. -/
theorem C4_positional_argument_order_witness :
    parseArgs atoiLen atofLen argvEx =
      some ⟨1, "tr", "te", 1, 1, 1, [2], [2], 1, 1, true⟩ :=
  (C4_positional_argument_order atoiLen atofLen argvEx 1 1 (by decide) (by decide)
    (by decide)).trans (by decide)

/-- Witness for C2 at `r = 2`, `N = 3`, three rows of two pairs each. -/
theorem C2_store_offsets_witness :
    (∀ i < 3, mystart 2 3 (i + 1) = mystart 2 3 i + 2) ∧
    (∀ i j, i ≤ j → j ≤ 3 → mystart 2 3 i ≤ mystart 2 3 j) ∧
    mystart 2 3 3 = nnz 2 3 ∧ nnz 2 3 = 2 * 3 ∧
    storedCount (List.replicate 3 [((1 : Int), (1 : ℚ)), ((2 : Int), (1 : ℚ))]) = nnz 2 3 :=
  C2_store_offsets 2 3 (List.replicate 3 [((1 : Int), (1 : ℚ)), ((2 : Int), (1 : ℚ))])
    (by decide) (by decide)

/-- Claim C1 (code bug evidence): the `EYE` construction writes every
in-range offset, index and value correctly (`mystart[i] = i`, `myidx[i] = i`,
`myX[i] = 1`), but the final offset `mystart[M]` is written as `M + 1`
(line 256), not the declared nonzero count `M` from `EYE.Init(M, M, M)`;
shown in general and evaluated at `M = 4`, where the offset array is
`[0, 1, 2, 3, 5]` and the final offset `5` differs from `eyeNnz 4 = 4`. -/
theorem C1_eye_final_offset_bug :
    (∀ M : Nat, (eyeStartList M).getD M 0 = M + 1) ∧
    eyeStartList 4 = [0, 1, 2, 3, 5] ∧
    eyeIdxList 4 = [0, 1, 2, 3] ∧
    eyeXList 4 = [1, 1, 1, 1] ∧
    (eyeStartList 4).getD 4 0 = 5 ∧ eyeNnz 4 = 4 ∧
    (eyeStartList 4).getD 4 0 ≠ eyeNnz 4 := by
  refine ⟨?_, by decide, by decide, by decide, by decide, by decide, by decide⟩
  intro M
  rw [eyeStartList, List.getD, List.get?_append_right (by simp)]
  simp

/-! ### Theorems for the scorer claims -/

/-- Claim C6: each `Performance` overload reports an error and produces no
numeric result (`none`) exactly when its size or class-count precondition
is violated: the vector overload iff the lengths differ or `NumClasses` is
outside `{1, 2}`; the matrix overload iff the truth length differs from
the prediction row count, the prediction column count differs from
`NumClasses`, or `NumClasses ≤ 2`. -/
theorem C6_performance_error_guards (sqrt : ℚ → ℚ) (yt yp : List ℚ)
    (P : DMatrixQ) (nc : Int) :
    (Performance sqrt yt yp nc = none ↔
      yt.length ≠ yp.length ∨ (nc ≠ 1 ∧ nc ≠ 2)) ∧
    (PerformanceMat yt P nc = none ↔
      yt.length ≠ P.rows.length ∨ (P.ncols : Int) ≠ nc ∨ nc ≤ 2) := by
  constructor
  · simp only [Performance]
    split_ifs with h1 h2 h3
    · exact iff_of_true rfl (Or.inl h1)
    · exact iff_of_true rfl (Or.inr h2)
    · exact iff_of_false (by simp) (by tauto)
    · exact iff_of_false (by simp) (by tauto)
  · have key : PerformanceMat yt P nc = none ↔
        (yt.length ≠ P.rows.length ∨ (P.ncols : Int) ≠ nc) ∨ nc ≤ 2 := by
      simp only [PerformanceMat]
      split_ifs with h1 h2
      · exact iff_of_true rfl (Or.inl h1)
      · exact iff_of_true rfl (Or.inr h2)
      · exact iff_of_false (by simp) (by tauto)
    rw [key, or_assoc]

/-- Claim C7: for `NumClasses == 2` and equal-length non-empty vectors, the
vector `Performance` overload returns 100 times the fraction of indices at
which truth and prediction have the same (strict) sign, and this value
always lies in `[0, 100]`. -/
theorem C7_binary_accuracy (sqrt : ℚ → ℚ) (yt yp : List ℚ)
    (hlen : yt.length = yp.length) (hne : 0 < yt.length) :
    Performance sqrt yt yp 2 =
      some (100 * (sameSignCount yt yp : ℚ) / (yt.length : ℚ)) ∧
    0 ≤ 100 * (sameSignCount yt yp : ℚ) / (yt.length : ℚ) ∧
    100 * (sameSignCount yt yp : ℚ) / (yt.length : ℚ) ≤ 100 := by
  have hcnt : (List.zip yt yp).countP signMatch = sameSignCount yt yp := by
    refine List.countP_congr ?_
    intro ab _
    simp only [signMatch, decide_eq_true_eq]
    exact mul_pos_iff
  have hn : (0 : ℚ) < (yt.length : ℚ) := by exact_mod_cast hne
  have hle : sameSignCount yt yp ≤ yt.length := by
    calc sameSignCount yt yp ≤ (List.zip yt yp).length := List.countP_le_length _
    _ ≤ yt.length := by rw [List.length_zip]; omega
  refine ⟨?_, ?_, ?_⟩
  · unfold Performance
    rw [if_neg (by omega), if_neg (by omega), if_neg (by omega), hcnt]
    congr 1
    ring
  · exact div_nonneg (mul_nonneg (by norm_num) (Nat.cast_nonneg _)) hn.le
  · rw [div_le_iff₀ hn]
    have : (sameSignCount yt yp : ℚ) ≤ (yt.length : ℚ) := by exact_mod_cast hle
    nlinarith

/-- Witness for C7: truth `[+1, -1, +1]`, prediction `[0.2, 0.1, -0.3]`
give one sign match out of three, accuracy `100/3`. -/
theorem C7_binary_accuracy_witness :
    Performance (fun x => x) [1, -1, 1] [1/5, 1/10, -3/10] 2 = some (100/3) :=
  ((C7_binary_accuracy (fun x => x) [1, -1, 1] [1/5, 1/10, -3/10]
    (by decide) (by decide)).1).trans (by norm_num [sameSignCount])

/-- Claim C10: in the binary branch the match test is the strict product
comparison `y1[i]*y2[i] > 0`, so a point whose truth or prediction is
exactly 0 is never counted as correct — in particular truth 0 and
prediction 0 (first point of the concrete run below) is not a sign match,
giving 50% rather than 100%. -/
theorem C10_zero_counted_incorrect :
    (∀ a b : ℚ, a = 0 ∨ b = 0 → signMatch (a, b) = false) ∧
    Performance (fun x => x) [0, 1] [0, 1] 2 = some 50 := by
  constructor
  · rintro a b (rfl | rfl) <;> simp [signMatch]
  · norm_num [Performance, signMatch, List.countP, List.countP.go]

/-- Witness for C10 at the concrete zero inputs. -/
theorem C10_zero_counted_incorrect_witness :
    signMatch ((0 : ℚ), (3 : ℚ)) = false ∧
    Performance (fun x => x) [0, 1] [0, 1] 2 = some 50 :=
  ⟨C10_zero_counted_incorrect.1 0 3 (Or.inl rfl), C10_zero_counted_incorrect.2⟩

/-! ### Theorems for the multiclass scorer claim -/

/-- Invariant of the `MaxAux` scan: either no remaining entry strictly
beats the incumbent best value and the incumbent index is returned, or the
returned index points (relative to `i`) at the first remaining entry that
attains the overall maximum. -/
theorem MaxAux_spec : ∀ (rest : List ℚ) (bv : ℚ) (bi i : Int),
    (MaxAux rest bv bi i = bi ∧ ∀ k, k < rest.length → rest.getD k 0 ≤ bv) ∨
    (∃ k : Nat, k < rest.length ∧ MaxAux rest bv bi i = i + (k : Int) ∧
      bv < rest.getD k 0 ∧
      (∀ j, j < rest.length → rest.getD j 0 ≤ rest.getD k 0) ∧
      (∀ j, j < k → rest.getD j 0 < rest.getD k 0))
  | [], bv, bi, i => Or.inl ⟨rfl, by intro k hk; simp at hk⟩
  | v :: rest, bv, bi, i => by
      rw [MaxAux]
      by_cases hv : bv < v
      · rw [if_pos hv]
        rcases MaxAux_spec rest v i (i + 1) with ⟨heq, hub⟩ | ⟨k, hk, heq, hbeat, hub, hstr⟩
        · refine Or.inr ⟨0, by simp, by rw [heq]; simp, by simpa using hv, ?_, ?_⟩
          · intro j hj
            match j with
            | 0 => simp
            | j + 1 =>
                rw [List.getD_cons_succ, List.getD_cons_zero]
                exact hub j (by simpa using hj)
          · intro j hj; omega
        · refine Or.inr ⟨k + 1, by simpa using hk, ?_, ?_, ?_, ?_⟩
          · rw [heq]; push_cast; ring
          · rw [List.getD_cons_succ]
            exact lt_trans hv hbeat
          · intro j hj
            match j with
            | 0 =>
                rw [List.getD_cons_zero, List.getD_cons_succ]
                exact le_of_lt hbeat
            | j + 1 =>
                rw [List.getD_cons_succ, List.getD_cons_succ]
                exact hub j (by simpa using hj)
          · intro j hj
            match j with
            | 0 =>
                rw [List.getD_cons_zero, List.getD_cons_succ]
                exact hbeat
            | j + 1 =>
                rw [List.getD_cons_succ, List.getD_cons_succ]
                exact hstr j (by omega)
      · rw [if_neg hv]
        rcases MaxAux_spec rest bv bi (i + 1) with ⟨heq, hub⟩ | ⟨k, hk, heq, hbeat, hub, hstr⟩
        · refine Or.inl ⟨heq, ?_⟩
          intro k hk
          match k with
          | 0 => simpa using le_of_not_lt hv
          | k + 1 =>
              rw [List.getD_cons_succ]
              exact hub k (by simpa using hk)
        · refine Or.inr ⟨k + 1, by simpa using hk, ?_, ?_, ?_, ?_⟩
          · rw [heq]; push_cast; ring
          · rw [List.getD_cons_succ]
            exact lt_of_le_of_lt (le_refl bv) hbeat
          · intro j hj
            match j with
            | 0 =>
                rw [List.getD_cons_zero, List.getD_cons_succ]
                exact le_trans (le_of_not_lt hv) (le_of_lt hbeat)
            | j + 1 =>
                rw [List.getD_cons_succ, List.getD_cons_succ]
                exact hub j (by simpa using hj)
          · intro j hj
            match j with
            | 0 =>
                rw [List.getD_cons_zero, List.getD_cons_succ]
                exact lt_of_le_of_lt (le_of_not_lt hv) hbeat
            | j + 1 =>
                rw [List.getD_cons_succ, List.getD_cons_succ]
                exact hstr j (by omega)

theorem MaxIdx_spec : ∀ (row : List ℚ), row ≠ [] → argmaxProp row (MaxIdx row)
  | [], hne => absurd rfl hne
  | v :: rest, _ => by
      rw [MaxIdx]
      rcases MaxAux_spec rest v 0 1 with ⟨heq, hub⟩ | ⟨k, hk, heq, hbeat, hub, hstr⟩
      · rw [heq]
        refine ⟨le_refl 0, by simp, ?_, by intro j hj; simp at hj⟩
        intro j hj
        match j with
        | 0 => simp
        | j + 1 =>
            simp only [Int.toNat_zero, List.getD_cons_succ, List.getD_cons_zero]
            exact hub j (by simpa using hj)
      · rw [heq]
        have ha : ((1 : Int) + (k : Int)).toNat = k + 1 := by omega
        refine ⟨by omega, ?_, ?_, ?_⟩
        · rw [ha]; simpa using hk
        · intro j hj
          rw [ha, List.getD_cons_succ]
          match j with
          | 0 =>
              rw [List.getD_cons_zero]
              exact le_of_lt hbeat
          | j + 1 =>
              rw [List.getD_cons_succ]
              exact hub j (by simpa using hj)
        · intro j hj
          rw [ha] at hj
          rw [ha, List.getD_cons_succ]
          match j with
          | 0 =>
              rw [List.getD_cons_zero]
              exact hbeat
          | j + 1 =>
              rw [List.getD_cons_succ]
              exact hstr j (by omega)

/-- Claim C8: for `NumClasses > 2` with an `n × NumClasses` score matrix,
`PerformanceMat` predicts each row's class by `MaxIdx` — which attains the
row maximum with ties resolved to the lowest class index — and returns 100
times the fraction of rows whose predicted class equals the integer truth
label. -/
theorem C8_multiclass_accuracy (yt : List ℚ) (P : DMatrixQ) (nc : Int)
    (h1 : yt.length = P.rows.length) (h2 : (P.ncols : Int) = nc)
    (h3 : 2 < nc) (hrect : ∀ row ∈ P.rows, row.length = P.ncols) :
    PerformanceMat yt P nc =
      some (100 * ((List.zip yt
          (P.rows.map fun row => ((MaxIdx row : Int) : ℚ))).countP
        (fun ab => truncQ ab.1 == truncQ ab.2) : ℚ) / (yt.length : ℚ)) ∧
    ∀ row ∈ P.rows, argmaxProp row (MaxIdx row) := by
  constructor
  · simp only [PerformanceMat]
    rw [if_neg (by push_neg; exact ⟨h1, h2⟩), if_neg (by omega)]
    congr 1
    ring
  · intro row hrow
    refine MaxIdx_spec row ?_
    intro hemp
    have hlen := hrect row hrow
    rw [hemp] at hlen
    simp only [List.length_nil] at hlen
    omega

/-- Witness for C8: truth `[0, 1, 0, 1]`, predicted classes `[0, 1, 1, 1]`,
accuracy 75%. -/
theorem C8_multiclass_accuracy_witness :
    PerformanceMat [0, 1, 0, 1] Pex 3 = some 75 := by
  rw [(C8_multiclass_accuracy [0, 1, 0, 1] Pex 3 (by decide) (by decide)
    (by decide) (by decide)).1]
  have hc : (List.countP (fun ab => truncQ ab.1 == truncQ ab.2)
      (([0, 1, 0, 1] : List ℚ).zip
        (List.map (fun row => ((MaxIdx row : Int) : ℚ)) Pex.rows))) = 3 := by
    decide
  rw [hc]
  norm_num

/-! ### Theorems for the label recoding claim -/

/-- Claim C9: for a label vector whose entries are integers in
`[0, NumClasses)`, entry `(j, i)` of the recoded label matrix equals `+1`
if `ytrain[j] == i` and `-1` otherwise; hence in every row exactly one
column equals `+1`. -/
theorem C9_convert_ytrain (ytrain : List ℚ) (NumClasses : Nat)
    (hlab : ∀ y ∈ ytrain, ∃ k : Nat, y = (k : ℚ) ∧ k < NumClasses)
    (j : Nat) (hj : j < ytrain.length) :
    (∀ i, i < NumClasses →
      ((ConvertYtrain ytrain NumClasses).getD i []).getD j 0 =
        if ytrain.getD j 0 = (i : ℚ) then 1 else -1) ∧
    (List.range NumClasses).countP
      (fun i => ((ConvertYtrain ytrain NumClasses).getD i []).getD j 0 == 1) = 1 := by
  have hmem : ytrain.getD j 0 ∈ ytrain := by
    rw [List.getD_eq_getElem _ _ hj]
    exact List.getElem_mem hj
  obtain ⟨k, hk, hklt⟩ := hlab _ hmem
  have htr : truncQ (ytrain.getD j 0) = (k : Int) := by
    rw [hk, truncQ, if_pos (by positivity)]
    exact Int.floor_natCast k
  have hentry : ∀ i, i < NumClasses →
      ((ConvertYtrain ytrain NumClasses).getD i []).getD j 0 =
        if k = i then (1 : ℚ) else -1 := by
    intro i hi
    have hcol : (ConvertYtrain ytrain NumClasses).getD i [] =
        ytrain.map fun yj => if truncQ yj = (i : Int) then (1 : ℚ) else -1 := by
      rw [ConvertYtrain, List.getD_eq_getElem _ _ (by simpa using hi),
        List.getElem_map, List.getElem_range]
    rw [hcol, List.getD_eq_getElem _ _ (by simpa using hj), List.getElem_map,
      ← List.getD_eq_getElem ytrain 0 hj, htr]
    exact if_congr Int.natCast_inj rfl rfl
  constructor
  · intro i hi
    rw [hentry i hi, hk]
    exact if_congr (by exact_mod_cast Iff.rfl) rfl rfl
  · have hpred : ∀ i ∈ List.range NumClasses,
        (((ConvertYtrain ytrain NumClasses).getD i []).getD j 0 == 1) =
          (i == k) := by
      intro i hi
      rw [hentry i (List.mem_range.mp hi)]
      by_cases hik : k = i
      · subst hik
        simp
      · rw [if_neg hik]
        have h1 : ((-1 : ℚ) == 1) = false := by norm_num
        have h2 : (i == k) = false := by
          simp only [beq_eq_false_iff_ne, ne_eq]
          omega
        rw [h1, h2]
    have hcc : (List.range NumClasses).countP
        (fun i => ((ConvertYtrain ytrain NumClasses).getD i []).getD j 0 == 1) =
        (List.range NumClasses).countP (fun i => i == k) :=
      List.countP_congr (by
        intro x hx
        rw [hpred x hx])
    rw [hcc]
    exact List.count_eq_one_of_mem (List.nodup_range NumClasses)
      (List.mem_range.mpr hklt)

/-- Witness for C9 at labels `[0, 2, 1]`, three classes, row `j = 1`. -/
theorem C9_convert_ytrain_witness :
    (∀ i, i < 3 →
      ((ConvertYtrain [0, 2, 1] 3).getD i []).getD 1 0 =
        if ([(0 : ℚ), 2, 1]).getD 1 0 = (i : ℚ) then 1 else -1) ∧
    (List.range 3).countP
      (fun i => ((ConvertYtrain [0, 2, 1] 3).getD i []).getD 1 0 == 1) = 1 :=
  C9_convert_ytrain [0, 2, 1] 3
    (by
      intro y hy
      simp only [List.mem_cons, List.not_mem_nil, or_false] at hy
      rcases hy with rfl | rfl | rfl
      · exact ⟨0, by norm_num⟩
      · exact ⟨2, by norm_num⟩
      · exact ⟨1, by norm_num⟩)
    1 (by decide)

/-! ### Theorems for the column-dimension claim -/

theorem if_lt_eq_max (dd v : Int) : (if dd < v then v else dd) = max dd v := by
  rcases lt_or_le dd v with h | h
  · rw [if_pos h, max_eq_right (le_of_lt h)]
  · rw [if_neg (not_lt_of_le h), max_eq_left h]

theorem ddOf_eq_foldl (r : Nat) (rows : List (List (Int × ℚ))) :
    ddOf r rows = (rows.map (lastFirst r)).foldl max 0 := by
  rw [List.foldl_map, ddOf]
  simp only [if_lt_eq_max]

theorem init_le_foldl_max : ∀ (l : List Int) (init : Int), init ≤ l.foldl max init
  | [], _ => le_refl _
  | a :: l, init =>
      le_trans (le_max_left init a) (init_le_foldl_max l (max init a))

theorem foldl_max_le : ∀ (l : List Int) (init x : Int), x ∈ l → x ≤ l.foldl max init
  | [], _, x, hx => absurd hx (List.not_mem_nil x)
  | a :: l, init, x, hx => by
      rcases List.mem_cons.mp hx with rfl | hx
      · exact le_trans (le_max_right init x) (init_le_foldl_max l (max init x))
      · exact foldl_max_le l (max init a) x hx

theorem foldl_max_mem : ∀ (l : List Int) (init : Int),
    l.foldl max init = init ∨ l.foldl max init ∈ l
  | [], _ => Or.inl rfl
  | a :: l, init => by
      rcases foldl_max_mem l (max init a) with h | h
      · rcases le_total init a with hia | hia
        · rw [List.foldl_cons, h, max_eq_right hia]
          exact Or.inr (List.mem_cons_self a l)
        · rw [List.foldl_cons, h, max_eq_left hia]
          exact Or.inl rfl
      · exact Or.inr (List.mem_cons_of_mem a h)

/-- In a row sorted by ascending feature id, every pair's id is bounded by
the id of the pair at the last position. -/
theorem le_last_of_pairwise : ∀ (row : List (Int × ℚ)),
    row.Pairwise (fun p q => p.1 ≤ q.1) →
    ∀ p ∈ row, p.1 ≤ (row.getD (row.length - 1) (0, 0)).1
  | [], _, p, hp => absurd hp (List.not_mem_nil p)
  | a :: row, hpw, p, hp => by
      match row with
      | [] =>
          rw [List.mem_singleton] at hp
          subst hp
          simp
      | b :: row' =>
          have hlen : (a :: b :: row').length - 1 = (b :: row').length - 1 + 1 := by
            simp only [List.length_cons]
            omega
          rw [hlen, List.getD_cons_succ]
          rcases List.mem_cons.mp hp with rfl | hp
          · have hmemlast : (b :: row').getD ((b :: row').length - 1) (0, 0) ∈ b :: row' := by
              have hl : (b :: row').length - 1 < (b :: row').length := by
                simp only [List.length_cons]
                omega
              rw [List.getD_eq_getElem _ _ hl]
              exact List.getElem_mem hl
            exact List.rel_of_pairwise_cons hpw hmemlast
          · exact le_last_of_pairwise (b :: row') (List.Pairwise.of_cons hpw) p hp

/-- Claim C5: under the precondition that there is at least one generated
row, `r ≥ 1`, and every row has exactly `r` pairs sorted in ascending
feature-id order with 1-based ids, the column dimension `dd` passed to
`Xdata_randbin.Init` equals the maximum stored 0-based column index plus
one: `dd - 1` is itself a stored index and bounds all stored indices. -/
theorem C5_dd_max_observed (r : Nat) (rows : List (List (Int × ℚ)))
    (hne : rows ≠ []) (hr : 1 ≤ r)
    (hlen : ∀ row ∈ rows, row.length = r)
    (hsort : ∀ row ∈ rows, row.Pairwise (fun p q => p.1 ≤ q.1))
    (hpos : ∀ row ∈ rows, ∀ p ∈ row, 1 ≤ p.1) :
    (ddOf r rows - 1) ∈ storedIdx rows ∧
    ∀ v ∈ storedIdx rows, v ≤ ddOf r rows - 1 := by
  have hlast_mem : ∀ row ∈ rows, row.getD (r - 1) (0, 0) ∈ row := by
    intro row hrow
    have hl : r - 1 < row.length := by rw [hlen row hrow]; omega
    rw [List.getD_eq_getElem _ _ hl]
    exact List.getElem_mem hl
  have hlast_ge1 : ∀ row ∈ rows, 1 ≤ lastFirst r row := by
    intro row hrow
    exact hpos row hrow _ (hlast_mem row hrow)
  have hub : ∀ row ∈ rows, lastFirst r row ≤ ddOf r rows := by
    intro row hrow
    rw [ddOf_eq_foldl]
    exact foldl_max_le _ 0 _ (List.mem_map_of_mem _ hrow)
  obtain ⟨row0, hrow0⟩ : ∃ row, row ∈ rows := by
    match rows with
    | [] => exact absurd rfl hne
    | a :: l => exact ⟨a, List.mem_cons_self a l⟩
  have hdd1 : 1 ≤ ddOf r rows := le_trans (hlast_ge1 row0 hrow0) (hub row0 hrow0)
  have hmem : ddOf r rows ∈ rows.map (lastFirst r) := by
    rcases ddOf_eq_foldl r rows ▸ foldl_max_mem (rows.map (lastFirst r)) 0 with h | h
    · omega
    · exact h
  obtain ⟨rowM, hrowM, hEq⟩ := List.mem_map.mp hmem
  constructor
  · rw [← hEq]
    refine List.mem_bind.mpr ⟨rowM, hrowM, ?_⟩
    exact List.mem_map_of_mem _ (hlast_mem rowM hrowM)
  · intro v hv
    obtain ⟨row, hrow, hvm⟩ := List.mem_bind.mp hv
    obtain ⟨p, hp, rfl⟩ := List.mem_map.mp hvm
    have h1 : p.1 ≤ lastFirst r row := by
      have h := le_last_of_pairwise row (hsort row hrow) p hp
      rwa [hlen row hrow] at h
    have h2 := hub row hrow
    omega

/-- Witness for C5 on `rowsEx` with `r = 2`: `dd = 4`, stored indices
`[0, 2, 1, 3]`, maximum `3 = dd - 1`. -/
theorem C5_dd_max_observed_witness :
    (ddOf 2 rowsEx - 1) ∈ storedIdx rowsEx ∧
    ∀ v ∈ storedIdx rowsEx, v ≤ ddOf 2 rowsEx - 1 :=
  C5_dd_max_observed 2 rowsEx (by decide) (by decide) (by decide) (by decide)
    (by decide)

end KRR
